import Mathlib

/-!
# Verification of the picofeed aggregation pipeline

Shallow embedding of picofeed's core pipeline (Go source): the post data
model, the timestamp-descending sort and date grouping (`groupByDate`),
per-item normalization (`parseFeed`), the fetch with one level of feed
auto-discovery (`fetchFeed` / `extractFeedLink`), the concurrent aggregator
(`fetchAll`, modelled sequentially: the aggregate multiset of posts does not
depend on goroutine scheduling), and argument resolution (`parseFeedArg`,
`main`'s resolution phase).

External collaborators (the HTTP client, the gofeed parser, Go's regexp
engine, `url.Parse`, and the filesystem) are modelled as oracle functions
bundled in a `World`, since their internals are out of scope; every piece of
control flow around them is translated from the source.
-/

/-- A display-period label, the result of Go's `Timestamp.Format("Jan 2006")`:
the formatted string is determined by (and, month names being distinct and
years printing distinctly, determines) the (year, month) pair. -/
abbrev Label := Int × Nat

/-- Model of Go's `time.Time`: a point in time decomposed as calendar year,
month, and position within the month (day/hour/min/sec/nsec combined into
one number).  This decomposition is order-preserving: absolute time order is
lexicographic order on (year, month, rest). -/
structure GoTime where
  year : Int
  month : Nat
  rest : Nat
deriving DecidableEq, Repr

/-- Go's `time.Time.After`: strict "later than", lexicographic on the
calendar decomposition. -/
def GoTime.After (a b : GoTime) : Bool :=
  decide (b.year < a.year ∨ (b.year = a.year ∧
    (b.month < a.month ∨ (b.month = a.month ∧ b.rest < a.rest))))

/-- The `Post` struct.  `Timestamp` is `*time.Time` in Go but every
constructed Post carries a non-nil pointer (see `parseFeed`), so it is
modelled as a plain `GoTime`. -/
structure Post where
  Title : String
  Link : String
  Timestamp : GoTime
  FeedLink : String
  FeedTitle : String
deriving DecidableEq, Repr

/-- The sortedness contract left by `sort.Sort(ByTimestamp{posts})`:
`ByTimestamp.Less i j` is `posts[i].Timestamp.After(posts[j].Timestamp)`,
and Go's sort guarantees that in the result no later element is `Less` than
an earlier one, i.e. consecutive posts satisfy `postLe`. -/
def postLe (p q : Post) : Prop := GoTime.After q.Timestamp p.Timestamp = false

instance : DecidableRel postLe := fun p q => by unfold postLe; infer_instance

instance : IsTotal Post postLe :=
  ⟨fun p q => by
    simp only [postLe, GoTime.After, decide_eq_false_iff_not]
    omega⟩

instance : IsTrans Post postLe :=
  ⟨fun p q r => by
    simp only [postLe, GoTime.After, decide_eq_false_iff_not]
    omega⟩

/-- Model of `sort.Sort(ByTimestamp{posts})`: a permutation of the input
sorted with respect to `postLe` (Go's sort is unstable, so the contract is
exactly "some sorted permutation"; insertion sort realises it). -/
def sortPosts (posts : List Post) : List Post := List.insertionSort postLe posts

/-- `Timestamp.Format("Jan 2006")`, as the (year, month) pair it displays. -/
def formatJan2006 (t : GoTime) : Label := (t.year, t.month)

/-- `grouped[len(grouped)-1] = append(grouped[len(grouped)-1], p)`:
append a post to the last bucket. -/
def appendLast : List (List Post) → Post → List (List Post)
  | [], p => [[p]]
  | [g], p => [g ++ [p]]
  | g :: gs, p => g :: appendLast gs p

/-- One iteration of the loop in `groupByDate`: compute the post's date
label, open a new bucket when it differs from `lastDate` (the initial
`lastDate` is `""`, which no formatted date equals — modelled by `none`),
then append the post to the last bucket. -/
def groupStep (format : GoTime → Label) (acc : List (List Post) × Option Label)
    (p : Post) : List (List Post) × Option Label :=
  if some (format p.Timestamp) ≠ acc.2
  then (appendLast (acc.1 ++ [[]]) p, some (format p.Timestamp))
  else (appendLast acc.1 p, acc.2)

/-- `groupByDate`: sort posts by descending timestamp, then walk them,
opening a new bucket at each change of date label.  Faithful to the Go code,
including the initial `grouped := [][]*Post{[]*Post{}}` (one empty list). -/
def groupByDate (format : GoTime → Label) (posts : List Post) : List (List Post) :=
  ((sortPosts posts).foldl (groupStep format) ([([] : List Post)], none)).1

/-! ## Characterisation of the grouping loop

`chunksFrom f cur d xs` describes the buckets the loop of `groupByDate`
still produces when the current (last) bucket holds `cur`, the current date
label is `d`, and `xs` posts remain. -/

def chunksFrom (f : GoTime → Label) (cur : List Post) (d : Label) :
    List Post → List (List Post)
  | [] => [cur]
  | p :: ps =>
    if f p.Timestamp = d then chunksFrom f (cur ++ [p]) d ps
    else cur :: chunksFrom f [p] (f p.Timestamp) ps

/-- The buckets produced for a whole (already sorted) list of posts. -/
def chunks (f : GoTime → Label) : List Post → List (List Post)
  | [] => []
  | p :: ps => chunksFrom f [p] (f p.Timestamp) ps

/-! ## Properties of the produced buckets -/

/-- Strict order on period labels: strictly later (year, month). -/
def labelLt (a b : Label) : Prop := a.1 < b.1 ∨ (a.1 = b.1 ∧ a.2 < b.2)

/-- Non-strict order on period labels. -/
def labelLe (a b : Label) : Prop := a.1 < b.1 ∨ (a.1 = b.1 ∧ a.2 ≤ b.2)

/-- Every post of the first bucket has a strictly later period label than
every post of the second bucket. -/
def bucketGt (b1 b2 : List Post) : Prop :=
  ∀ p ∈ b1, ∀ q ∈ b2, labelLt (formatJan2006 q.Timestamp) (formatJan2006 p.Timestamp)

/-! ## Concrete posts used in counterexamples and witnesses -/

def cPost1 : Post :=
  ⟨"post a", "http://a.example/1", ⟨2023, 5, 17⟩, "http://feed.example/rss", "Feed"⟩

def cPost2 : Post :=
  ⟨"post b", "http://b.example/2", ⟨2023, 5, 17⟩, "http://feed.example/rss", "Feed"⟩

/-! ## The fetch pipeline -/

/-- Model of `net/url.URL` restricted to the fields the program touches
(`Scheme`, `Host`, `Path`); `urlString` is `URL.String()` on them. -/
structure GoURL where
  scheme : String
  host : String
  path : String
deriving DecidableEq, Repr

def urlString (u : GoURL) : String := u.scheme ++ "://" ++ u.host ++ u.path

/-- A `gofeed.Item`: only the fields `parseFeed` reads. -/
structure Item where
  Title : String
  Link : String
  PublishedParsed : Option GoTime
  UpdatedParsed : Option GoTime
deriving DecidableEq, Repr

/-- A `gofeed.Feed`: only the fields the program reads. -/
structure Feed where
  Title : String
  Items : List Item
deriving DecidableEq, Repr

/-- Outcome of `gofeed.Parser.ParseString`: success, the distinguished
`gofeed.ErrFeedTypeNotDetected`, or any other parse error. -/
inductive ParseResult
  | ok (f : Feed)
  | typeNotDetected
  | failed
deriving DecidableEq, Repr

/-- An HTTP response: status code and body bytes. -/
structure HttpResp where
  status : Nat
  body : String
deriving DecidableEq, Repr

/-- The external collaborators, as oracles: `net` is the HTTP client keyed
by the fetched URL string (`none` = transport failure), `parseString` is the
gofeed parser, `findMatch r contents` is
`regexp.MustCompile(r).FindStringSubmatch(contents)` returning the first
capture group, `urlParse` is `net/url.Parse` (`none` = parse error), and
`fs` maps a path to the contents of an existing regular file. -/
structure World where
  net : String → Option HttpResp
  parseString : String → ParseResult
  findMatch : String → String → Option String
  urlParse : String → Option GoURL
  fs : String → Option String

/-- Model of `strings.HasPrefix` (on the character sequences of the two
strings; `String.startsWith` itself is equivalent but is an external
primitive that concrete proofs could not evaluate). -/
def hasPrefixGo (s pre : String) : Bool := pre.data.isPrefixOf s.data

def rssPattern : String := "\\s*<link.*type=\"application/rss\\+xml.*href=\"([^\"]*)\""

def atomPattern : String := "\\s*<link.*type=\"application/atom\\+xml.*href=\"([^\"]*)\""

/-- The loop of `extractFeedLink` over the two patterns: on a match, an
href starting with "/" is grafted onto the base URL as an absolute path;
otherwise the href is parsed as a URL, and a parse failure falls through to
the next pattern. -/
def extractLoop (w : World) (baseUrl : GoURL) (contents : String) :
    List String → Option GoURL
  | [] => none
  | r :: rs =>
    match w.findMatch r contents with
    | none => extractLoop w baseUrl contents rs
    | some href =>
      if hasPrefixGo href "/" then some ⟨baseUrl.scheme, baseUrl.host, href⟩
      else
        match w.urlParse href with
        | none => extractLoop w baseUrl contents rs
        | some u => some u

def extractFeedLink (w : World) (baseUrl : GoURL) (contents : String) : Option GoURL :=
  extractLoop w baseUrl contents [rssPattern, atomPattern]

/-- Failure modes of `fetchFeed`, mirroring the error returns of the Go
function in order: transport error from `client.Do`, non-2xx status, the
auto-discovery dead end ("Feed type not recognized, could not extract feed
from head"), `gofeed.ErrFeedTypeNotDetected` surfaced at depth 1, and any
other gofeed parse error. -/
inductive FetchErr
  | transport
  | httpStatus (code : Nat)
  | noDiscoverableFeed
  | typeNotDetected
  | malformed
deriving DecidableEq, Repr

/-- `fetchFeed`: one HTTP GET; non-2xx fails; gofeed parse; on
`ErrFeedTypeNotDetected` at depth 0, extract a feed link from the body and
recurse on it at depth 1 (the body-read error of `ioutil.ReadAll` cannot
occur in this model, where a response already carries its whole body). -/
def fetchFeed (w : World) (feedUrl : GoURL) (depth : Nat) : Except FetchErr Feed :=
  match w.net (urlString feedUrl) with
  | none => .error .transport
  | some resp =>
    if resp.status < 200 ∨ 300 ≤ resp.status then .error (.httpStatus resp.status)
    else
      match w.parseString resp.body with
      | .ok feed => .ok feed
      | .typeNotDetected =>
        if h : depth = 0 then
          match extractFeedLink w feedUrl resp.body with
          | none => .error .noDiscoverableFeed
          | some newFeed => fetchFeed w newFeed 1
        else .error .typeNotDetected
      | .failed => .error .malformed
termination_by 1 - depth
decreasing_by subst h; decide

/-- `fetchFeed` instrumented with the list of URLs it attempts to fetch, in
order; same branching as `fetchFeed`. -/
def fetchFeedT (w : World) (feedUrl : GoURL) (depth : Nat) :
    Except FetchErr Feed × List GoURL :=
  match w.net (urlString feedUrl) with
  | none => (.error .transport, [feedUrl])
  | some resp =>
    if resp.status < 200 ∨ 300 ≤ resp.status then (.error (.httpStatus resp.status), [feedUrl])
    else
      match w.parseString resp.body with
      | .ok feed => (.ok feed, [feedUrl])
      | .typeNotDetected =>
        if h : depth = 0 then
          match extractFeedLink w feedUrl resp.body with
          | none => (.error .noDiscoverableFeed, [feedUrl])
          | some newFeed =>
            ((fetchFeedT w newFeed 1).1, feedUrl :: (fetchFeedT w newFeed 1).2)
        else (.error .typeNotDetected, [feedUrl])
      | .failed => (.error .malformed, [feedUrl])
termination_by 1 - depth
decreasing_by all_goals subst h; decide

/-- `parseFeed`: one Post per item with a resolvable timestamp (published
preferred, else updated, else the item is skipped); `FeedLink` is the
`feedUrl` argument's string, `FeedTitle` the parsed feed's title.  The Go
function also returns an error which is always nil, so the model returns
just the posts. -/
def parseFeed (feedUrl : GoURL) (feed : Feed) : List Post :=
  feed.Items.foldl (fun posts i =>
    match i.PublishedParsed with
    | some t => posts ++ [⟨i.Title, i.Link, t, urlString feedUrl, feed.Title⟩]
    | none =>
      match i.UpdatedParsed with
      | some t => posts ++ [⟨i.Title, i.Link, t, urlString feedUrl, feed.Title⟩]
      | none => posts) []

/-- The timestamp-resolution policy as the spec words it: published if
present, else updated, else none. -/
def resolveTime (i : Item) : Option GoTime :=
  match i.PublishedParsed with
  | some t => some t
  | none => i.UpdatedParsed

/-- The work of one goroutine of `fetchAll`: fetch at depth 0; on error
contribute nothing; otherwise parse into posts (passing the ORIGINAL target
URL to `parseFeed`, exactly as the source does). -/
def fetchTarget (w : World) (feed : GoURL) : List Post :=
  match fetchFeed w feed 0 with
  | .error _ => []
  | .ok feedData => parseFeed feed feedData

/-- `fetchAll`: aggregate every target's posts.  The Go code runs targets
concurrently and drains a shared channel; the multiset of collected posts is
schedule-independent, modelled here by sequential accumulation. -/
def fetchAll (w : World) (feeds : List GoURL) : List Post :=
  feeds.foldl (fun acc f => acc ++ fetchTarget w f) []

/-! ## Argument resolution and the main pipeline -/

/-- Failure of `parseFeedArg`: a string (a whole argument or one line of a
feeds file) that `url.Parse` rejected, named in the error. -/
inductive ParseArgErr
  | invalidURL (line : String)
deriving DecidableEq, Repr

/-- The loop of `parseFeedArg` over the lines of a feeds file: empty lines
are skipped, each other line is parsed as a URL, the first parse failure
aborts with an error naming that line. -/
def parseLines (up : String → Option GoURL) : List String → Except ParseArgErr (List GoURL)
  | [] => .ok []
  | l :: ls =>
    if l = "" then parseLines up ls
    else
      match up l with
      | none => .error (.invalidURL l)
      | some u =>
        match parseLines up ls with
        | .error e => .error e
        | .ok us => .ok (u :: us)

/-- Model of `strings.Split(s, "\\n")` on the character sequence of `s` (the
library `String.splitOn` is equivalent on a single-character separator but
is built on external string primitives that concrete proofs could not
evaluate): accumulate the current line, emit it at each newline, and emit
the final (possibly empty) line at the end. -/
def splitNlAux : List Char → List Char → List String
  | [], acc => [String.mk acc.reverse]
  | c :: cs, acc =>
    if c = '\n' then String.mk acc.reverse :: splitNlAux cs []
    else splitNlAux cs (c :: acc)

def splitNl (s : String) : List String := splitNlAux s.data []

/-- The non-empty lines of a file's contents, in file order (the lines the
loop of `parseFeedArg` does not skip). -/
def nonEmptyLines (contents : String) : List String :=
  (splitNl contents).filter (fun l => l ≠ "")

/-- `parseFeedArg`: if the argument does not name an existing regular file,
parse the whole argument as one URL; otherwise read the file, split its
contents on newlines and parse each non-empty line. -/
def parseFeedArg (w : World) (feed : String) : Except ParseArgErr (List GoURL) :=
  match w.fs feed with
  | none =>
    match w.urlParse feed with
    | none => .error (.invalidURL feed)
    | some u => .ok [u]
  | some contents => parseLines w.urlParse (splitNl contents)

/-- Fatal errors of `main` before fetching: no argument at all, or an
argument that failed to resolve (both exit 1). -/
inductive MainErr
  | noFeedProvided
  | invalidFeedArg (arg : String) (e : ParseArgErr)
deriving DecidableEq, Repr

/-- What a successful run produces: the version string, or the posts handed
to rendering. -/
inductive MainResult
  | version
  | posts (ps : List Post)
deriving DecidableEq, Repr

/-- The resolution loop of `main`: `parseFeedArg` on each argument in
order, aborting on the first failure, concatenating the URL lists. -/
def resolveAll (w : World) : List String → Except MainErr (List GoURL)
  | [] => .ok []
  | a :: as =>
    match parseFeedArg w a with
    | .error e => .error (.invalidFeedArg a e)
    | .ok us =>
      match resolveAll w as with
      | .error e => .error e
      | .ok rest => .ok (us ++ rest)

/-- `main` up to rendering: no arguments is a usage error (exit 1); a first
argument "version" prints the version; otherwise resolve every argument
(first failure exits 1) and fetch.  An `Except.error` models a non-zero
exit, `Except.ok` a zero exit. -/
def runPicofeed (w : World) (args : List String) : Except MainErr MainResult :=
  match args with
  | [] => .error .noFeedProvided
  | a :: rest =>
    if a = "version" then .ok .version
    else
      match resolveAll w (a :: rest) with
      | .error e => .error e
      | .ok feeds => .ok (.posts (fetchAll w feeds))

/-! ## Concrete scenario: auto-discovery (used by several witnesses)

The values below mirror what Go's regexp and `url.Parse` do on the concrete
strings involved; each oracle entry is justified in a comment. -/

def uOrig : GoURL := ⟨"http", "orig.example", "/page"⟩

def uFeed : GoURL := ⟨"http", "orig.example", "/feed.xml"⟩

def uBad : GoURL := ⟨"http", "down.example", "/feed"⟩

def htmlBody : String := "<link type=\"application/rss+xml\" href=\"/feed.xml\">"

def feedBody : String := "feed-xml"

def cItem : Item := ⟨"hello", "http://orig.example/posts/1", some ⟨2023, 5, 17⟩, none⟩

def cFeed : Feed := ⟨"Orig Blog", [cItem]⟩

/-- A world where the user-supplied page is HTML declaring an rss feed link
(`href="/feed.xml"`, which the rss regex captures) and the discovered URL
serves a parseable feed with one item; `down.example` is unreachable. -/
def wDisc : World where
  net s := if s = "http://orig.example/page" then some ⟨200, htmlBody⟩
    else if s = "http://orig.example/feed.xml" then some ⟨200, feedBody⟩
    else none
  parseString b := if b = htmlBody then .typeNotDetected
    else if b = feedBody then .ok cFeed
    else .failed
  findMatch r c := if r = rssPattern ∧ c = htmlBody then some "/feed.xml" else none
  urlParse _ := none
  fs _ := none

/-! ## Concrete scenario: page with both rss and atom link tags -/

def uPage : GoURL := ⟨"http", "page.example", "/"⟩

def uAtom : GoURL := ⟨"http", "atom.example", "/feed"⟩

/-- A page with an rss link tag (href `%zz`) on one line and an atom link
tag on the next.  The two tags sit on SEPARATE lines: in Go's regexp `.`
does not match a newline, so the greedy `.*` of the rss pattern cannot
reach past the end of the first line and its `href="([^\"]*)"` captures
`%zz`, the only href on that line (on a single line the greedy `.*` would
instead stretch to the last href). -/
def htmlBoth : String :=
  "<link type=\"application/rss+xml\" href=\"%zz\">\n<link type=\"application/atom+xml\" href=\"http://atom.example/feed\">"

/-- A world for `htmlBoth`: the rss regex matches the first line and
captures `%zz`; the atom regex matches starting at the newline (`\\s*`
absorbs it) and captures the atom URL from the second line;
`url.Parse("%zz")` fails in Go (invalid URL escape `%zz`), modelled by
`urlParse` returning `none` on it, while the atom URL parses. -/
def wBoth : World where
  net _ := none
  parseString _ := .failed
  findMatch r c :=
    if r = rssPattern ∧ c = htmlBoth then some "%zz"
    else if r = atomPattern ∧ c = htmlBoth then some "http://atom.example/feed"
    else none
  urlParse s := if s = "http://atom.example/feed" then some uAtom else none
  fs _ := none

/-! ## Concrete scenario: feeds files -/

def uA : GoURL := ⟨"http", "a.example", "/feed"⟩

def uB : GoURL := ⟨"http", "b.example", "/feed"⟩

/-- A world with a two-line feeds file (trailing newline) whose lines both
parse as URLs. -/
def wFile : World where
  net _ := none
  parseString _ := .failed
  findMatch _ _ := none
  urlParse s := if s = "http://a.example/feed" then some uA
    else if s = "http://b.example/feed" then some uB
    else none
  fs p := if p = "feeds.txt" then some "http://a.example/feed\nhttp://b.example/feed\n"
    else none

/-- A world whose feeds file consists of a single newline: it resolves to
zero URLs without error. -/
def wEmptyFile : World where
  net _ := none
  parseString _ := .failed
  findMatch _ _ := none
  urlParse _ := none
  fs p := if p = "feeds.txt" then some "\n" else none

/-- The post produced in the `wDisc` auto-discovery scenario: its FeedLink
is the user-supplied page URL, not the discovered feed URL. -/
def cDiscPost : Post :=
  ⟨"hello", "http://orig.example/posts/1", ⟨2023, 5, 17⟩, "http://orig.example/page", "Orig Blog"⟩

/-! ## Theorems -/

theorem appendLast_append (gs : List (List Post)) (c : List Post) (p : Post) :
    appendLast (gs ++ [c]) p = gs ++ [c ++ [p]] := by
  induction gs with
  | nil => rfl
  | cons a as ih =>
    cases as with
    | nil => rfl
    | cons b bs =>
      simp only [List.cons_append, appendLast] at ih ⊢
      exact congrArg (List.cons a) ih

theorem groupStep_of_eq (f : GoTime → Label) (gs : List (List Post)) (cur : List Post)
    (d : Label) (p : Post) (h : f p.Timestamp = d) :
    groupStep f (gs ++ [cur], some d) p = (gs ++ [cur ++ [p]], some d) := by
  unfold groupStep
  rw [if_neg (by simp [h])]
  show (appendLast (gs ++ [cur]) p, some d) = _
  rw [appendLast_append]

theorem groupStep_of_ne (f : GoTime → Label) (gs : List (List Post)) (cur : List Post)
    (d : Label) (p : Post) (h : ¬ f p.Timestamp = d) :
    groupStep f (gs ++ [cur], some d) p = ((gs ++ [cur]) ++ [[p]], some (f p.Timestamp)) := by
  unfold groupStep
  rw [if_pos (by simp [h])]
  show (appendLast ((gs ++ [cur]) ++ [[]]) p, some (f p.Timestamp)) = _
  rw [appendLast_append]
  rfl

theorem groupStep_none (f : GoTime → Label) (p : Post) :
    groupStep f ([([] : List Post)], none) p =
      ([([] : List Post)] ++ [[p]], some (f p.Timestamp)) := by
  unfold groupStep
  rw [if_pos (by simp)]
  rfl

theorem foldl_groupStep (f : GoTime → Label) (xs : List Post) :
    ∀ (gs : List (List Post)) (cur : List Post) (d : Label),
      (xs.foldl (groupStep f) (gs ++ [cur], some d)).1 = gs ++ chunksFrom f cur d xs := by
  induction xs with
  | nil => intro gs cur d; rfl
  | cons p ps ih =>
    intro gs cur d
    by_cases h : f p.Timestamp = d
    · rw [List.foldl_cons, groupStep_of_eq f gs cur d p h, ih, chunksFrom, if_pos h]
    · rw [List.foldl_cons, groupStep_of_ne f gs cur d p h, ih, chunksFrom, if_neg h]
      simp

theorem groupByDate_eq_chunks (f : GoTime → Label) (posts : List Post) :
    groupByDate f posts = [] :: chunks f (sortPosts posts) := by
  unfold groupByDate
  cases hs : sortPosts posts with
  | nil => rfl
  | cons p ps =>
    rw [List.foldl_cons, groupStep_none, foldl_groupStep]
    rfl

theorem labelLt_of_le_of_ne {a b : Label} (h : labelLe a b) (hne : a ≠ b) : labelLt a b := by
  have hne' : ¬(a.1 = b.1 ∧ a.2 = b.2) := by
    intro hc
    exact hne (Prod.ext hc.1 hc.2)
  unfold labelLe at h
  unfold labelLt
  omega

theorem labelLe_lt_trans {a b c : Label} (h1 : labelLe a b) (h2 : labelLt b c) :
    labelLt a c := by
  unfold labelLe at h1
  unfold labelLt at h2 ⊢
  omega

theorem labelLt_irrefl (a : Label) : ¬ labelLt a a := by
  unfold labelLt
  omega

/-- Monotonicity of the month+year truncation: if `q` is no later than `p`
then its (year, month) label is no greater. -/
theorem postLe_labelLe {p q : Post} (h : postLe p q) :
    labelLe (formatJan2006 q.Timestamp) (formatJan2006 p.Timestamp) := by
  simp only [postLe, GoTime.After, decide_eq_false_iff_not] at h
  simp only [labelLe, formatJan2006]
  omega

theorem chunksFrom_flatten (f : GoTime → Label) (xs : List Post) :
    ∀ (cur : List Post) (d : Label), (chunksFrom f cur d xs).flatten = cur ++ xs := by
  induction xs with
  | nil => intro cur d; simp [chunksFrom]
  | cons p ps ih =>
    intro cur d
    by_cases h : f p.Timestamp = d
    · rw [chunksFrom, if_pos h, ih]
      simp
    · rw [chunksFrom, if_neg h]
      simp only [List.flatten_cons, ih]
      rfl

theorem chunksFrom_ne_nil (f : GoTime → Label) (xs : List Post) :
    ∀ (cur : List Post) (d : Label), cur ≠ [] →
      ∀ b ∈ chunksFrom f cur d xs, b ≠ [] := by
  induction xs with
  | nil =>
    intro cur d hcur b hb
    rw [chunksFrom] at hb
    simp only [List.mem_singleton] at hb
    exact hb ▸ hcur
  | cons p ps ih =>
    intro cur d hcur b hb
    by_cases h : f p.Timestamp = d
    · rw [chunksFrom, if_pos h] at hb
      exact ih (cur ++ [p]) d (by simp) b hb
    · rw [chunksFrom, if_neg h] at hb
      rcases List.mem_cons.mp hb with hb | hb
      · exact hb ▸ hcur
      · exact ih [p] (f p.Timestamp) (by simp) b hb

theorem chunksFrom_uniform (f : GoTime → Label) (xs : List Post) :
    ∀ (cur : List Post) (d : Label), (∀ q ∈ cur, f q.Timestamp = d) →
      ∀ b ∈ chunksFrom f cur d xs, ∃ e, ∀ q ∈ b, f q.Timestamp = e := by
  induction xs with
  | nil =>
    intro cur d hcur b hb
    rw [chunksFrom] at hb
    simp only [List.mem_singleton] at hb
    exact ⟨d, hb ▸ hcur⟩
  | cons p ps ih =>
    intro cur d hcur b hb
    by_cases h : f p.Timestamp = d
    · rw [chunksFrom, if_pos h] at hb
      refine ih (cur ++ [p]) d ?_ b hb
      intro q hq
      rcases List.mem_append.mp hq with hq | hq
      · exact hcur q hq
      · simp only [List.mem_singleton] at hq
        exact hq ▸ h
    · rw [chunksFrom, if_neg h] at hb
      rcases List.mem_cons.mp hb with hb | hb
      · exact ⟨d, hb ▸ hcur⟩
      · refine ih [p] (f p.Timestamp) ?_ b hb
        intro q hq
        simp only [List.mem_singleton] at hq
        exact hq ▸ rfl

theorem labelLe_refl (a : Label) : labelLe a a := by
  unfold labelLe
  omega

/-- In a descending-sorted list every element's label is bounded by the
head's label. -/
theorem sorted_head_labelLe {p : Post} {ps : List Post}
    (hs : List.Pairwise postLe (p :: ps)) :
    ∀ y ∈ p :: ps, labelLe (formatJan2006 y.Timestamp) (formatJan2006 p.Timestamp) := by
  intro y hy
  rcases List.mem_cons.mp hy with rfl | hy
  · exact labelLe_refl _
  · exact postLe_labelLe (List.rel_of_pairwise_cons hs hy)

theorem chunksFrom_pairwise (xs : List Post) :
    ∀ (cur : List Post) (d : Label),
      (∀ q ∈ cur, formatJan2006 q.Timestamp = d) →
      List.Pairwise postLe (cur ++ xs) →
      List.Pairwise bucketGt (chunksFrom formatJan2006 cur d xs) := by
  induction xs with
  | nil =>
    intro cur d _ _
    rw [chunksFrom]
    exact List.Pairwise.cons (by intro b hb; cases hb) List.Pairwise.nil
  | cons p ps ih =>
    intro cur d hcur hs
    by_cases h : formatJan2006 p.Timestamp = d
    · rw [chunksFrom, if_pos h]
      refine ih (cur ++ [p]) d ?_ ?_
      · intro q hq
        rcases List.mem_append.mp hq with hq | hq
        · exact hcur q hq
        · simp only [List.mem_singleton] at hq
          exact hq ▸ h
      · simpa [List.append_assoc] using hs
    · rw [chunksFrom, if_neg h]
      have hsplit := List.pairwise_append.mp hs
      have htail : List.Pairwise postLe (p :: ps) := hsplit.2.1
      have hcross : ∀ x ∈ cur, ∀ y ∈ p :: ps, postLe x y := hsplit.2.2
      refine List.Pairwise.cons ?_ (ih [p] (formatJan2006 p.Timestamp) ?_ ?_)
      · intro b hb x hx y hy
        have hyin : y ∈ p :: ps := by
          have hfl : (chunksFrom formatJan2006 [p] (formatJan2006 p.Timestamp) ps).flatten
              = [p] ++ ps := chunksFrom_flatten _ _ _ _
          have := List.mem_flatten.mpr ⟨b, hb, hy⟩
          rw [hfl] at this
          simpa using this
        have hyp : labelLe (formatJan2006 y.Timestamp) (formatJan2006 p.Timestamp) :=
          sorted_head_labelLe htail y hyin
        have hxp : postLe x p := hcross x hx p (List.mem_cons_self _ _)
        have hplt : labelLt (formatJan2006 p.Timestamp) (formatJan2006 x.Timestamp) := by
          refine labelLt_of_le_of_ne (postLe_labelLe hxp) ?_
          rw [hcur x hx]
          exact h
        exact labelLe_lt_trans hyp hplt
      · intro q hq
        simp only [List.mem_singleton] at hq
        exact hq ▸ rfl
      · simpa using htail

theorem chunksFrom_same_bucket (xs : List Post) :
    ∀ (cur : List Post) (d : Label) (p0 q0 : Post),
      (∀ q ∈ cur, formatJan2006 q.Timestamp = d) →
      List.Pairwise postLe (cur ++ xs) →
      p0 ∈ cur ++ xs → q0 ∈ cur ++ xs →
      formatJan2006 p0.Timestamp = formatJan2006 q0.Timestamp →
      ∃ b ∈ chunksFrom formatJan2006 cur d xs, p0 ∈ b ∧ q0 ∈ b := by
  induction xs with
  | nil =>
    intro cur d p0 q0 _ _ hp hq _
    refine ⟨cur, ?_, ?_, ?_⟩
    · rw [chunksFrom]
      exact List.mem_singleton.mpr rfl
    · simpa using hp
    · simpa using hq
  | cons p ps ih =>
    intro cur d p0 q0 hcur hs hp hq heq
    by_cases h : formatJan2006 p.Timestamp = d
    · rw [chunksFrom, if_pos h]
      refine ih (cur ++ [p]) d p0 q0 ?_ ?_ ?_ ?_ heq
      · intro q hq'
        rcases List.mem_append.mp hq' with hq' | hq'
        · exact hcur q hq'
        · simp only [List.mem_singleton] at hq'
          exact hq' ▸ h
      · simpa [List.append_assoc] using hs
      · simpa [List.append_assoc] using hp
      · simpa [List.append_assoc] using hq
    · rw [chunksFrom, if_neg h]
      have hsplit := List.pairwise_append.mp hs
      have htail : List.Pairwise postLe (p :: ps) := hsplit.2.1
      have hcross : ∀ x ∈ cur, ∀ y ∈ p :: ps, postLe x y := hsplit.2.2
      have mixed : ∀ x ∈ cur, ∀ y ∈ p :: ps,
          formatJan2006 x.Timestamp ≠ formatJan2006 y.Timestamp := by
        intro x hx y hy hxy
        have hyp : labelLe (formatJan2006 y.Timestamp) (formatJan2006 p.Timestamp) :=
          sorted_head_labelLe htail y hy
        have hplt : labelLt (formatJan2006 p.Timestamp) (formatJan2006 x.Timestamp) := by
          refine labelLt_of_le_of_ne (postLe_labelLe (hcross x hx p (List.mem_cons_self _ _))) ?_
          rw [hcur x hx]
          exact h
        have : labelLt (formatJan2006 y.Timestamp) (formatJan2006 x.Timestamp) :=
          labelLe_lt_trans hyp hplt
        rw [hxy] at this
        exact labelLt_irrefl _ this
      rcases List.mem_append.mp hp with hp' | hp'
      · rcases List.mem_append.mp hq with hq' | hq'
        · exact ⟨cur, List.mem_cons_self _ _, hp', hq'⟩
        · exact absurd heq (mixed p0 hp' q0 hq')
      · rcases List.mem_append.mp hq with hq' | hq'
        · exact absurd heq.symm (mixed q0 hq' p0 hp')
        · have hrec := ih [p] (formatJan2006 p.Timestamp) p0 q0
            (by intro q hq''; simp only [List.mem_singleton] at hq''; exact hq'' ▸ rfl)
            (by simpa using htail) (by simpa using hp') (by simpa using hq') heq
          rcases hrec with ⟨b, hb, hpb, hqb⟩
          exact ⟨b, List.mem_cons_of_mem _ hb, hpb, hqb⟩

theorem chunks_flatten (l : List Post) : (chunks formatJan2006 l).flatten = l := by
  cases l with
  | nil => rfl
  | cons p ps =>
    rw [chunks, chunksFrom_flatten]
    rfl

theorem chunks_ne_nil (l : List Post) : ∀ b ∈ chunks formatJan2006 l, b ≠ [] := by
  cases l with
  | nil => intro b hb; cases hb
  | cons p ps => exact chunksFrom_ne_nil _ _ [p] _ (by simp)

theorem chunks_uniform (l : List Post) :
    ∀ b ∈ chunks formatJan2006 l, ∃ e, ∀ q ∈ b, formatJan2006 q.Timestamp = e := by
  cases l with
  | nil => intro b hb; cases hb
  | cons p ps =>
    exact chunksFrom_uniform _ _ [p] _
      (by intro q hq; simp only [List.mem_singleton] at hq; exact hq ▸ rfl)

theorem chunks_pairwise {l : List Post} (hs : List.Pairwise postLe l) :
    List.Pairwise bucketGt (chunks formatJan2006 l) := by
  cases l with
  | nil => exact List.Pairwise.nil
  | cons p ps =>
    exact chunksFrom_pairwise ps [p] _
      (by intro q hq; simp only [List.mem_singleton] at hq; exact hq ▸ rfl)
      (by simpa using hs)

theorem chunks_same_bucket {l : List Post} (hs : List.Pairwise postLe l) {p0 q0 : Post}
    (hp : p0 ∈ l) (hq : q0 ∈ l)
    (heq : formatJan2006 p0.Timestamp = formatJan2006 q0.Timestamp) :
    ∃ b ∈ chunks formatJan2006 l, p0 ∈ b ∧ q0 ∈ b := by
  cases l with
  | nil => cases hp
  | cons p ps =>
    exact chunksFrom_same_bucket ps [p] _ p0 q0
      (by intro q hq'; simp only [List.mem_singleton] at hq'; exact hq' ▸ rfl)
      (by simpa using hs) (by simpa using hp) (by simpa using hq) heq

theorem sortPosts_perm (posts : List Post) : (sortPosts posts).Perm posts :=
  List.perm_insertionSort postLe posts

theorem sortPosts_pairwise (posts : List Post) : List.Pairwise postLe (sortPosts posts) :=
  List.sorted_insertionSort postLe posts

/-- C3 counterexample: on the empty collection `groupByDate` returns one
bucket, and that bucket is empty — contradicting both "zero buckets" and
"every bucket in the output is non-empty". -/
theorem groupByDate_empty_counterexample :
    groupByDate formatJan2006 [] = [[]]
    ∧ (groupByDate formatJan2006 []).length = 1
    ∧ [] ∈ groupByDate formatJan2006 [] := by
  decide

/-- C3 (amended): applied to the empty collection the Grouper/Sorter returns
a single empty bucket (not an error); for every input collection the first
bucket is empty and every later bucket is a non-empty sequence of Posts. -/
theorem groupByDate_shape (posts : List Post) :
    groupByDate formatJan2006 [] = [[]]
    ∧ (groupByDate formatJan2006 posts).head? = some []
    ∧ ∀ b ∈ (groupByDate formatJan2006 posts).tail, b ≠ [] := by
  refine ⟨by decide, ?_, ?_⟩
  · rw [groupByDate_eq_chunks]
    rfl
  · rw [groupByDate_eq_chunks]
    exact chunks_ne_nil _

/-- C4 counterexample: two posts with equal timestamps — in the flattened
output one precedes the other although its timestamp is not strictly after
the other's, refuting the stated "A before B iff A.Timestamp strictly after
B.Timestamp". -/
theorem groupByDate_order_counterexample :
    (groupByDate formatJan2006 [cPost1, cPost2]).flatten = [cPost1, cPost2]
    ∧ GoTime.After cPost1.Timestamp cPost2.Timestamp = false
    ∧ GoTime.After cPost2.Timestamp cPost1.Timestamp = false := by
  decide

/-- C4 (amended): the flattened output is a permutation of the input sorted
weakly descending by timestamp (Post A before Post B implies B's timestamp
is not strictly after A's; ties in unspecified order); after the leading
empty bucket every bucket carries a single period label, and those labels
are strictly decreasing across the bucket sequence. -/
theorem groupByDate_ordering (posts : List Post) :
    (groupByDate formatJan2006 posts).flatten.Perm posts
    ∧ List.Pairwise postLe (groupByDate formatJan2006 posts).flatten
    ∧ (∀ b ∈ (groupByDate formatJan2006 posts).tail,
        ∃ e, ∀ q ∈ b, formatJan2006 q.Timestamp = e)
    ∧ List.Pairwise bucketGt (groupByDate formatJan2006 posts).tail := by
  refine ⟨?_, ?_, ?_, ?_⟩
  · rw [groupByDate_eq_chunks, List.flatten_cons, List.nil_append, chunks_flatten]
    exact sortPosts_perm posts
  · rw [groupByDate_eq_chunks, List.flatten_cons, List.nil_append, chunks_flatten]
    exact sortPosts_pairwise posts
  · rw [groupByDate_eq_chunks]
    exact chunks_uniform _
  · rw [groupByDate_eq_chunks]
    exact chunks_pairwise (sortPosts_pairwise posts)

/-- C9: two posts of the input with identical timestamps but different links
end up in one common bucket of the output, and no post is dropped (the
flattened output is a permutation of the input). -/
theorem groupByDate_same_timestamp (posts : List Post) (p q : Post)
    (hp : p ∈ posts) (hq : q ∈ posts)
    (hts : p.Timestamp = q.Timestamp) (_hlink : p.Link ≠ q.Link) :
    (∃ b ∈ groupByDate formatJan2006 posts, p ∈ b ∧ q ∈ b)
    ∧ (groupByDate formatJan2006 posts).flatten.Perm posts := by
  have hperm := sortPosts_perm posts
  have hb := chunks_same_bucket (sortPosts_pairwise posts)
    (hperm.mem_iff.mpr hp) (hperm.mem_iff.mpr hq)
    (by rw [hts])
  rcases hb with ⟨b, hbmem, hpb, hqb⟩
  refine ⟨⟨b, ?_, hpb, hqb⟩, ?_⟩
  · rw [groupByDate_eq_chunks]
    exact List.mem_cons_of_mem _ hbmem
  · rw [groupByDate_eq_chunks, List.flatten_cons, List.nil_append, chunks_flatten]
    exact hperm

/-- Witness for C9 at a concrete input. -/
theorem groupByDate_same_timestamp_witness :
    (∃ b ∈ groupByDate formatJan2006 [cPost1, cPost2], cPost1 ∈ b ∧ cPost2 ∈ b)
    ∧ (groupByDate formatJan2006 [cPost1, cPost2]).flatten.Perm [cPost1, cPost2] :=
  groupByDate_same_timestamp [cPost1, cPost2] cPost1 cPost2
    (by decide) (by decide) (by decide) (by decide)

/-! ## Claims about the normalizer and the aggregator -/

theorem parseFeed_loop (u : GoURL) (ft : String) (items : List Item) :
    ∀ acc : List Post,
      items.foldl (fun posts i =>
        match i.PublishedParsed with
        | some t => posts ++ [⟨i.Title, i.Link, t, urlString u, ft⟩]
        | none =>
          match i.UpdatedParsed with
          | some t => posts ++ [⟨i.Title, i.Link, t, urlString u, ft⟩]
          | none => posts) acc
      = acc ++ items.filterMap (fun i => (resolveTime i).map
          (fun t => ⟨i.Title, i.Link, t, urlString u, ft⟩)) := by
  induction items with
  | nil => intro acc; simp
  | cons i is ih =>
    intro acc
    cases hp : i.PublishedParsed with
    | some t => simp [List.foldl_cons, hp, ih, resolveTime, List.filterMap_cons]
    | none =>
      cases hu : i.UpdatedParsed with
      | some t => simp [List.foldl_cons, hp, hu, ih, resolveTime, List.filterMap_cons]
      | none => simp [List.foldl_cons, hp, hu, ih, resolveTime, List.filterMap_cons]

theorem parseFeed_eq_filterMap (feedUrl : GoURL) (feed : Feed) :
    parseFeed feedUrl feed = feed.Items.filterMap (fun i =>
      (resolveTime i).map (fun t => ⟨i.Title, i.Link, t, urlString feedUrl, feed.Title⟩)) := by
  unfold parseFeed
  simpa using parseFeed_loop feedUrl feed.Title feed.Items []

/-- C5: `parseFeed` emits one Post per item with a resolvable timestamp —
the item's published time when present, otherwise its updated time — and an
item with neither produces no Post at all (silent skip; the function is
total, so a skipped item can never fail the pipeline). -/
theorem parseFeed_timestamp_policy (feedUrl : GoURL) (feed : Feed) :
    parseFeed feedUrl feed = feed.Items.filterMap (fun i =>
      (resolveTime i).map (fun t => ⟨i.Title, i.Link, t, urlString feedUrl, feed.Title⟩)) :=
  parseFeed_eq_filterMap feedUrl feed

theorem fetchAll_eq_flatMap (w : World) (feeds : List GoURL) :
    fetchAll w feeds = feeds.flatMap (fetchTarget w) := by
  unfold fetchAll
  suffices h : ∀ acc, feeds.foldl (fun acc f => acc ++ fetchTarget w f) acc
      = acc ++ feeds.flatMap (fetchTarget w) by
    simpa using h []
  induction feeds with
  | nil => intro acc; simp
  | cons f fs ih => intro acc; simp [List.foldl_cons, ih]

theorem fetchTarget_of_error (w : World) (f : GoURL)
    (h : (fetchFeed w f 0).isOk = false) : fetchTarget w f = [] := by
  unfold fetchTarget
  cases hf : fetchFeed w f 0 with
  | error e => rfl
  | ok d => rw [hf] at h; simp [Except.isOk, Except.toBool] at h

/-- C2: the aggregate never fails (the aggregator is a total function into
post lists); a target whose fetch fails contributes zero posts, and the
result equals the aggregate over the successfully fetched targets alone. -/
theorem fetchAll_tolerant (w : World) (feeds : List GoURL) :
    fetchAll w feeds = fetchAll w (feeds.filter (fun f => (fetchFeed w f 0).isOk))
    ∧ ∀ f, (fetchFeed w f 0).isOk = false → fetchTarget w f = [] := by
  refine ⟨?_, fun f hf => fetchTarget_of_error w f hf⟩
  rw [fetchAll_eq_flatMap, fetchAll_eq_flatMap]
  induction feeds with
  | nil => rfl
  | cons f fs ih =>
    cases hok : (fetchFeed w f 0).isOk with
    | true => simp [List.filter_cons, hok, ih]
    | false => simp [List.filter_cons, hok, ih, fetchTarget_of_error w f hok]

/-- Witness for C2: one reachable feed target and one unreachable one. -/
theorem fetchAll_tolerant_witness :
    fetchAll wDisc [uOrig, uBad] =
      fetchAll wDisc (List.filter (fun f => (fetchFeed wDisc f 0).isOk) [uOrig, uBad])
    ∧ fetchTarget wDisc uBad = [] :=
  ⟨(fetchAll_tolerant wDisc [uOrig, uBad]).1,
   (fetchAll_tolerant wDisc [uOrig, uBad]).2 uBad (by
      simp [fetchFeed, wDisc, urlString, uBad, Except.isOk, Except.toBool])⟩

theorem parseFeed_feedLink (u : GoURL) (feed : Feed) :
    ∀ p ∈ parseFeed u feed, p.FeedLink = urlString u := by
  intro p hp
  rw [parseFeed_eq_filterMap] at hp
  rcases List.mem_filterMap.mp hp with ⟨i, _, hi⟩
  rcases Option.map_eq_some'.mp hi with ⟨t, _, hft⟩
  rw [← hft]

/-- C1 (amended): per target.  `fetchAll` is target-by-target the
concatenation of `fetchTarget` contributions, and every post emitted for a
given target `f` carries as `FeedLink` exactly THAT target's user-supplied
URL — `fetchAll` hands the ORIGINAL URL to `parseFeed` even when
auto-discovery fetched a different URL. -/
theorem fetchAll_feedLink (w : World) (feeds : List GoURL) (f : GoURL) (p : Post) :
    fetchAll w feeds = feeds.flatMap (fetchTarget w)
    ∧ (p ∈ fetchTarget w f → p.FeedLink = urlString f) := by
  refine ⟨fetchAll_eq_flatMap w feeds, ?_⟩
  intro hp
  unfold fetchTarget at hp
  cases hfe : fetchFeed w f 0 with
  | error e =>
    rw [hfe] at hp
    cases hp
  | ok d =>
    rw [hfe] at hp
    exact parseFeed_feedLink f d p hp

/-- C1 counterexample: in the `wDisc` scenario discovery occurred (the
fetch trace is [uOrig, uFeed]), yet the emitted post's FeedLink equals the
user-supplied URL and differs from the post-discovery URL that was actually
fetched — refuting the claim. -/
theorem feedLink_discovery_counterexample :
    (fetchFeedT wDisc uOrig 0).2 = [uOrig, uFeed]
    ∧ fetchAll wDisc [uOrig] = [cDiscPost]
    ∧ cDiscPost.FeedLink = urlString uOrig
    ∧ urlString uOrig ≠ urlString uFeed := by
  refine ⟨?_, ?_, by decide, by decide⟩
  · simp [fetchFeedT, wDisc, urlString, uOrig, uFeed, htmlBody, feedBody, extractFeedLink,
      extractLoop, rssPattern, atomPattern, cFeed, hasPrefixGo]
  · simp [fetchAll, fetchTarget, fetchFeed, wDisc, urlString, uOrig, uFeed, htmlBody, feedBody,
      extractFeedLink, extractLoop, rssPattern, atomPattern, cFeed, cItem, hasPrefixGo,
      parseFeed, cDiscPost]

/-- Witness for C1 (amended) in the discovery scenario: the post emitted
for target `uOrig` carries `uOrig`'s URL. -/
theorem fetchAll_feedLink_witness :
    fetchAll wDisc [uOrig] = ([uOrig] : List GoURL).flatMap (fetchTarget wDisc)
    ∧ cDiscPost.FeedLink = urlString uOrig :=
  ⟨(fetchAll_feedLink wDisc [uOrig] uOrig cDiscPost).1,
   (fetchAll_feedLink wDisc [uOrig] uOrig cDiscPost).2 (by
    simp [fetchTarget, fetchFeed, wDisc, urlString, uOrig, uFeed, htmlBody, feedBody,
      extractFeedLink, extractLoop, rssPattern, atomPattern, cFeed, cItem, hasPrefixGo,
      parseFeed, cDiscPost])⟩

/-! ## Claims about the fetcher and discovery -/

theorem fetchFeedT_of_ne_zero (w : World) (u : GoURL) (d : Nat) (hd : d ≠ 0) :
    fetchFeedT w u d = (fetchFeed w u d, [u]) := by
  unfold fetchFeedT fetchFeed
  cases w.net (urlString u) with
  | none => rfl
  | some resp =>
    dsimp only
    by_cases hst : resp.status < 200 ∨ 300 ≤ resp.status
    · rw [if_pos hst, if_pos hst]
    · rw [if_neg hst, if_neg hst]
      cases w.parseString resp.body with
      | ok feed => rfl
      | typeNotDetected => rw [dif_neg hd, dif_neg hd]
      | failed => rfl

theorem fetchFeedT_fst (w : World) (u : GoURL) (d : Nat) :
    (fetchFeedT w u d).1 = fetchFeed w u d := by
  by_cases hd : d = 0
  · subst hd
    unfold fetchFeedT fetchFeed
    cases w.net (urlString u) with
    | none => rfl
    | some resp =>
      dsimp only
      by_cases hst : resp.status < 200 ∨ 300 ≤ resp.status
      · rw [if_pos hst, if_pos hst]
      · rw [if_neg hst, if_neg hst]
        cases w.parseString resp.body with
        | ok feed => rfl
        | typeNotDetected =>
          rw [dif_pos rfl, dif_pos rfl]
          cases extractFeedLink w u resp.body with
          | none => rfl
          | some newFeed =>
            dsimp only
            rw [fetchFeedT_of_ne_zero w newFeed 1 one_ne_zero]
        | failed => rfl
  · rw [fetchFeedT_of_ne_zero w u d hd]

theorem fetchFeedT_trace_zero (w : World) (u : GoURL) :
    (fetchFeedT w u 0).2.length ≤ 2 := by
  unfold fetchFeedT
  cases w.net (urlString u) with
  | none => simp
  | some resp =>
    dsimp only
    by_cases hst : resp.status < 200 ∨ 300 ≤ resp.status
    · rw [if_pos hst]
      simp
    · rw [if_neg hst]
      cases w.parseString resp.body with
      | ok feed => simp
      | typeNotDetected =>
        rw [dif_pos rfl]
        cases extractFeedLink w u resp.body with
        | none => simp
        | some newFeed =>
          dsimp only
          rw [fetchFeedT_of_ne_zero w newFeed 1 one_ne_zero]
          simp
      | failed => simp

/-- C6: discovery is strictly bounded to depth 1.  The instrumented fetch
agrees with `fetchFeed`; at any depth other than 0 exactly one URL is
fetched; starting at depth 0 at most two URLs are ever fetched; and at
depth 1 an unrecognized feed type fails with the
`gofeed.ErrFeedTypeNotDetected` error after that single fetch, with no
discovery fetch. -/
theorem fetchFeed_discovery_bounded (w : World) (u : GoURL) :
    (∀ d, (fetchFeedT w u d).1 = fetchFeed w u d)
    ∧ (∀ d, d ≠ 0 → (fetchFeedT w u d).2 = [u])
    ∧ (fetchFeedT w u 0).2.length ≤ 2
    ∧ (∀ resp, w.net (urlString u) = some resp →
        ¬(resp.status < 200 ∨ 300 ≤ resp.status) →
        w.parseString resp.body = .typeNotDetected →
        fetchFeed w u 1 = .error .typeNotDetected ∧ (fetchFeedT w u 1).2 = [u]) := by
  refine ⟨fun d => fetchFeedT_fst w u d,
    fun d hd => by rw [fetchFeedT_of_ne_zero w u d hd],
    fetchFeedT_trace_zero w u, ?_⟩
  intro resp hnet hst hparse
  constructor
  · unfold fetchFeed
    simp only [hnet, if_neg hst, hparse, dif_neg one_ne_zero]
  · rw [fetchFeedT_of_ne_zero w u 1 one_ne_zero]

/-- Witness for C6: the discovery page itself, fetched at depth 1, fails
with the feed-type error after a single fetch. -/
theorem fetchFeed_discovery_bounded_witness :
    fetchFeed wDisc uOrig 1 = .error .typeNotDetected
    ∧ (fetchFeedT wDisc uOrig 1).2 = [uOrig] :=
  (fetchFeed_discovery_bounded wDisc uOrig).2.2.2 ⟨200, htmlBody⟩
    (by simp [wDisc, urlString, uOrig]) (by simp) (by simp [wDisc])

/-! ## Claims about argument resolution -/

theorem filterMap_length_of_isSome (up : String → Option GoURL) (l : List String)
    (h : ∀ x ∈ l, (up x).isSome) : (l.filterMap up).length = l.length := by
  induction l with
  | nil => rfl
  | cons x xs ih =>
    rcases Option.isSome_iff_exists.mp (h x (List.mem_cons_self x xs)) with ⟨u, hu⟩
    rw [List.filterMap_cons, hu]
    simp [ih (fun y hy => h y (List.mem_cons_of_mem x hy))]

theorem parseLines_all_ok (up : String → Option GoURL) (lines : List String)
    (h : ∀ l ∈ lines.filter (fun l => l ≠ ""), (up l).isSome) :
    parseLines up lines = .ok ((lines.filter (fun l => l ≠ "")).filterMap up) := by
  induction lines with
  | nil => rfl
  | cons l ls ih =>
    by_cases hl : l = ""
    · subst hl
      have hfil : ("" :: ls).filter (fun l => l ≠ "") = ls.filter (fun l => l ≠ "") := by
        simp
      rw [hfil] at h ⊢
      rw [parseLines, if_pos rfl]
      exact ih h
    · have hfil : (l :: ls).filter (fun l => l ≠ "") = l :: ls.filter (fun l => l ≠ "") := by
        simp [hl]
      rw [hfil] at h ⊢
      rcases Option.isSome_iff_exists.mp (h l (List.mem_cons_self _ _)) with ⟨u, hu⟩
      have htail := ih (fun y hy => h y (List.mem_cons_of_mem l hy))
      simp only [parseLines, if_neg hl, hu, htail, List.filterMap_cons]

theorem parseLines_first_err (up : String → Option GoURL) (lines : List String) :
    ∀ (good : List String) (bad : String) (rest : List String),
      lines.filter (fun l => l ≠ "") = good ++ bad :: rest →
      (∀ l ∈ good, (up l).isSome) → up bad = none →
      parseLines up lines = .error (.invalidURL bad) := by
  induction lines with
  | nil =>
    intro good bad rest hfil _ _
    simp at hfil
  | cons l ls ih =>
    intro good bad rest hfil hgood hbad
    by_cases hl : l = ""
    · subst hl
      have hfil2 : ("" :: ls).filter (fun l => l ≠ "") = ls.filter (fun l => l ≠ "") := by
        simp
      rw [hfil2] at hfil
      rw [parseLines, if_pos rfl]
      exact ih good bad rest hfil hgood hbad
    · have hfil2 : (l :: ls).filter (fun l => l ≠ "") = l :: ls.filter (fun l => l ≠ "") := by
        simp [hl]
      rw [hfil2] at hfil
      cases good with
      | nil =>
        rw [List.nil_append] at hfil
        injection hfil with h1 h2
        subst h1
        simp only [parseLines, if_neg hl, hbad]
      | cons g good' =>
        rw [List.cons_append] at hfil
        injection hfil with h1 h2
        subst h1
        rcases Option.isSome_iff_exists.mp (hgood l (List.mem_cons_self _ _)) with ⟨u, hu⟩
        have htail := ih good' bad rest h2
          (fun y hy => hgood y (List.mem_cons_of_mem l hy)) hbad
        simp only [parseLines, if_neg hl, hu, htail]

/-- C7: resolving an argument that names an existing regular file splits
the contents on the newline character and discards empty lines; if every
remaining line parses as a URL the result is exactly their parses in file
order (N parseable lines yield exactly N URLs), and the first line that
fails URL parsing makes the whole resolution fail with an `invalidURL`
error naming that line. -/
theorem parseFeedArg_file (w : World) (arg contents : String)
    (hfs : w.fs arg = some contents) :
    ((∀ l ∈ nonEmptyLines contents, (w.urlParse l).isSome) →
      parseFeedArg w arg = .ok ((nonEmptyLines contents).filterMap w.urlParse)
      ∧ ((nonEmptyLines contents).filterMap w.urlParse).length
          = (nonEmptyLines contents).length)
    ∧ ∀ good bad rest, nonEmptyLines contents = good ++ bad :: rest →
        (∀ l ∈ good, (w.urlParse l).isSome) → w.urlParse bad = none →
        parseFeedArg w arg = .error (.invalidURL bad) := by
  have hpf : parseFeedArg w arg = parseLines w.urlParse (splitNl contents) := by
    unfold parseFeedArg
    rw [hfs]
  constructor
  · intro hall
    refine ⟨?_, filterMap_length_of_isSome _ _ hall⟩
    rw [hpf]
    exact parseLines_all_ok w.urlParse (splitNl contents) hall
  · intro good bad rest hsplit hgood hbad
    rw [hpf]
    exact parseLines_first_err w.urlParse (splitNl contents) good bad rest hsplit hgood hbad

/-- Witness for C7: a two-line feeds file with a trailing newline resolves
to exactly its two URLs in order. -/
theorem parseFeedArg_file_witness :
    parseFeedArg wFile "feeds.txt"
      = .ok ((nonEmptyLines "http://a.example/feed\nhttp://b.example/feed\n").filterMap
          wFile.urlParse)
    ∧ ((nonEmptyLines "http://a.example/feed\nhttp://b.example/feed\n").filterMap
        wFile.urlParse).length
      = (nonEmptyLines "http://a.example/feed\nhttp://b.example/feed\n").length :=
  (parseFeedArg_file wFile "feeds.txt" "http://a.example/feed\nhttp://b.example/feed\n"
    (by decide)).1 (by decide)

/-- C8 counterexample: a single argument naming a file containing only a
newline resolves, without error, to ZERO feed URLs — and the program then
succeeds with zero posts instead of terminating with an InvalidURL-class
fatal error. -/
theorem emptyResolution_counterexample :
    resolveAll wEmptyFile ["feeds.txt"] = .ok []
    ∧ runPicofeed wEmptyFile ["feeds.txt"] = .ok (.posts []) :=
  ⟨rfl, rfl⟩

/-- C8 (amended): only the completely empty argument list is fatal (usage
error, exit 1); a non-empty argument list whose resolution succeeds with
zero URLs is not an error — the run completes successfully with zero
posts. -/
theorem runPicofeed_empty_resolution (w : World) (args : List String) :
    (args = [] → runPicofeed w args = .error .noFeedProvided)
    ∧ ∀ a rest, args = a :: rest → a ≠ "version" → resolveAll w args = .ok [] →
        runPicofeed w args = .ok (.posts []) := by
  constructor
  · intro h
    subst h
    rfl
  · intro a rest h hver hres
    subst h
    unfold runPicofeed
    dsimp only
    rw [if_neg hver, hres]
    rfl

/-! ## Claims about feed-link extraction -/

/-- C10 counterexample: a page whose rss link tag carries href `%zz` (which
Go's `url.Parse` rejects: invalid URL escape) and whose atom link tag
carries a valid URL.  The rss pattern matches, yet extraction returns the
ATOM link — refuting "the atom link is used only when no rss link
matches". -/
theorem extractFeedLink_rss_counterexample :
    wBoth.findMatch rssPattern htmlBoth = some "%zz"
    ∧ wBoth.findMatch atomPattern htmlBoth = some "http://atom.example/feed"
    ∧ wBoth.urlParse "%zz" = none
    ∧ extractFeedLink wBoth uPage htmlBoth = some uAtom := by
  refine ⟨by decide, by decide, by decide, by decide⟩

/-- C10 (amended): the rss pattern is always consulted first: when it
matches and its captured href is usable (a "/"-rooted path, or a string
`url.Parse` accepts) the rss link is returned and the atom pattern never
decides the result; the atom pattern determines the result exactly when the
rss pattern does not match or its href fails URL parsing. -/
theorem extractFeedLink_rss_first (w : World) (baseUrl : GoURL) (contents : String) :
    (∀ href, w.findMatch rssPattern contents = some href →
      (hasPrefixGo href "/" = true →
        extractFeedLink w baseUrl contents = some ⟨baseUrl.scheme, baseUrl.host, href⟩)
      ∧ (hasPrefixGo href "/" = false → ∀ u, w.urlParse href = some u →
        extractFeedLink w baseUrl contents = some u)
      ∧ (hasPrefixGo href "/" = false → w.urlParse href = none →
        extractFeedLink w baseUrl contents = extractLoop w baseUrl contents [atomPattern]))
    ∧ (w.findMatch rssPattern contents = none →
      extractFeedLink w baseUrl contents = extractLoop w baseUrl contents [atomPattern]) := by
  constructor
  · intro href hm
    refine ⟨?_, ?_, ?_⟩
    · intro hpre
      unfold extractFeedLink extractLoop
      rw [hm]
      dsimp only
      rw [if_pos hpre]
    · intro hpre u hu
      unfold extractFeedLink extractLoop
      rw [hm]
      dsimp only
      rw [if_neg (by simp [hpre]), hu]
    · intro hpre hu
      unfold extractFeedLink extractLoop
      rw [hm]
      dsimp only
      rw [if_neg (by simp [hpre]), hu]
      rfl
  · intro hm
    unfold extractFeedLink extractLoop
    rw [hm]
    rfl

/-- Witness for C10 (amended): in the discovery scenario the rss match has
a "/"-rooted href and wins. -/
theorem extractFeedLink_rss_first_witness :
    extractFeedLink wDisc uOrig htmlBody = some ⟨uOrig.scheme, uOrig.host, "/feed.xml"⟩ :=
  ((extractFeedLink_rss_first wDisc uOrig htmlBody).1 "/feed.xml" (by decide)).1 (by decide)

/-- Witness for C3 (amended) at a concrete input. -/
theorem groupByDate_shape_witness :
    (groupByDate formatJan2006 [cPost1]).head? = some []
    ∧ ([cPost1] : List Post) ≠ [] :=
  ⟨(groupByDate_shape [cPost1]).2.1, (groupByDate_shape [cPost1]).2.2 [cPost1] (by decide)⟩

/-- Witness for C4 (amended) at a concrete input. -/
theorem groupByDate_ordering_witness :
    (groupByDate formatJan2006 [cPost1, cPost2]).flatten.Perm [cPost1, cPost2]
    ∧ ∃ e, ∀ q ∈ ([cPost1, cPost2] : List Post), formatJan2006 q.Timestamp = e :=
  ⟨(groupByDate_ordering [cPost1, cPost2]).1,
   (groupByDate_ordering [cPost1, cPost2]).2.2.1 [cPost1, cPost2] (by decide)⟩

/-- Witness for C8 (amended): the single-newline feeds file. -/
theorem runPicofeed_empty_resolution_witness :
    runPicofeed wEmptyFile ["feeds.txt"] = .ok (.posts []) :=
  (runPicofeed_empty_resolution wEmptyFile ["feeds.txt"]).2 "feeds.txt" [] rfl
    (by decide) rfl
